import Mathlib

/-!
Verification of the style-merging logic of `docs/src/style.py`:

```python
class DefaultAnsiStyle(DefaultStyle):
    styles = dict(DefaultStyle.styles)
    styles.update(color_tokens())
```

We embed Python insertion-ordered dictionaries (string keys, string
values) as association lists.  `dict(D)` is a value copy of `D`;
`d.update(o)` iterates the pairs of `o` in order and, for each pair
`(k, v)`, replaces the value of `k` in place when `k` is present
(keeping its position) and appends `(k, v)` otherwise — exactly the
CPython dict semantics observable through key order and lookup.
-/

namespace CartaStyle

/-- A token-to-style mapping: an insertion-ordered association list from
token-kind identifiers to style descriptors, as a Python dict exposes it. -/
abbrev StyleMapping := List (String × String)

/-- The key sequence of a mapping, in insertion order (Python `list(d)`). -/
def keys (m : StyleMapping) : List String := m.map Prod.fst

/-- Python `k in d`. -/
def hasKey (m : StyleMapping) (k : String) : Bool := m.any (fun p => p.1 == k)

/-- Python `d[k]`, as an `Option` (`none` models the `KeyError` branch). -/
def lookup (k : String) (m : StyleMapping) : Option String :=
  (m.find? (fun p => p.1 == k)).map Prod.snd

/-- Python `d[k] = v` on an insertion-ordered dict: replace in place when
the key is present, append otherwise. -/
def setKey (m : StyleMapping) (k v : String) : StyleMapping :=
  if hasKey m k then m.map (fun p => if p.1 == k then (k, v) else p)
  else m ++ [(k, v)]

/-- Python `dict(d)`: a fresh copy with the same contents and order. -/
def dictCopy (m : StyleMapping) : StyleMapping := m

/-- Python `d.update(o)`: fold `setKey` over the pairs of `o` in order. -/
def dictUpdate (m : StyleMapping) (o : StyleMapping) : StyleMapping :=
  o.foldl (fun acc p => setKey acc p.1 p.2) m

/-- The merge performed by the class body of `DefaultAnsiStyle`:
`styles = dict(base); styles.update(overlay)`. -/
def merge (base overlay : StyleMapping) : StyleMapping :=
  dictUpdate (dictCopy base) overlay

/-- Well-formedness of a `StyleMapping` as the image of a Python dict:
keys are pairwise distinct. -/
def NodupKeys (m : StyleMapping) : Prop := (keys m).Nodup

instance (m : StyleMapping) : Decidable (NodupKeys m) := by
  unfold NodupKeys; infer_instance

/-- Equality of two mappings as mappings: every key looks up to the same
result (including absence) in both. -/
def mapEquiv (a b : StyleMapping) : Prop := ∀ k, lookup k a = lookup k b

/-! ### Basic lemmas about `hasKey`, `keys`, `setKey`, `lookup` -/

theorem hasKey_iff_mem (m : StyleMapping) (k : String) :
    hasKey m k = true ↔ k ∈ keys m := by
  simp [hasKey, keys, List.any_eq_true, List.mem_map, beq_iff_eq]

theorem keys_setKey_of_hasKey (m : StyleMapping) (k v : String)
    (h : hasKey m k = true) : keys (setKey m k v) = keys m := by
  simp only [setKey, h, if_true, keys, List.map_map]
  apply List.map_congr_left
  intro p _
  by_cases hpk : p.1 = k
  · simp [hpk]
  · simp [hpk]

theorem keys_setKey_of_not_hasKey (m : StyleMapping) (k v : String)
    (h : hasKey m k = false) : keys (setKey m k v) = keys m ++ [k] := by
  simp [setKey, h, keys]

theorem mem_keys_setKey (m : StyleMapping) (k v x : String) :
    x ∈ keys (setKey m k v) ↔ x ∈ keys m ∨ x = k := by
  cases h : hasKey m k with
  | true =>
    rw [keys_setKey_of_hasKey m k v h]
    constructor
    · exact Or.inl
    · rintro (hx | rfl)
      · exact hx
      · exact (hasKey_iff_mem m x).mp h
  | false =>
    rw [keys_setKey_of_not_hasKey m k v h]
    simp

theorem hasKey_setKey (m : StyleMapping) (k v x : String) :
    hasKey (setKey m k v) x = (hasKey m x || (x == k)) := by
  have h : hasKey (setKey m k v) x = true ↔ (hasKey m x || (x == k)) = true := by
    simp only [Bool.or_eq_true, beq_iff_eq, hasKey_iff_mem]
    exact mem_keys_setKey m k v x
  cases hb : hasKey (setKey m k v) x with
  | true => exact (h.mp hb).symm
  | false =>
    cases hb2 : (hasKey m x || (x == k)) with
    | true => rw [← h.mpr hb2, hb]
    | false => rfl

theorem keys_cons (p : String × String) (t : StyleMapping) :
    keys (p :: t) = p.1 :: keys t := rfl

theorem lookup_cons (p : String × String) (t : StyleMapping) (k : String) :
    lookup k (p :: t) = if p.1 == k then some p.2 else lookup k t := by
  unfold lookup
  rw [List.find?_cons]
  cases h : (p.1 == k) with
  | true => simp [h]
  | false => simp [h]

theorem hasKey_cons (p : String × String) (t : StyleMapping) (k : String) :
    hasKey (p :: t) k = ((p.1 == k) || hasKey t k) := by
  simp [hasKey, List.any_cons]

theorem lookup_map_set_self (m : StyleMapping) (k v : String)
    (h : hasKey m k = true) :
    lookup k (m.map (fun p => if p.1 == k then (k, v) else p)) = some v := by
  induction m with
  | nil => simp [hasKey] at h
  | cons p rest ih =>
    rw [List.map_cons, lookup_cons]
    cases hpk : (p.1 == k) with
    | true => simp [hpk]
    | false =>
      have hr : hasKey rest k = true := by
        rw [hasKey_cons, hpk, Bool.false_or] at h
        exact h
      rw [if_neg (by simp [hpk]), ih hr]

theorem lookup_map_set_ne (m : StyleMapping) (k v x : String) (hx : x ≠ k) :
    lookup x (m.map (fun p => if p.1 == k then (k, v) else p)) = lookup x m := by
  have hkx : (k == x) = false := by
    have : ¬ k = x := fun hEq => hx hEq.symm
    simp [this]
  induction m with
  | nil => rfl
  | cons p rest ih =>
    rw [List.map_cons, lookup_cons, lookup_cons p rest x]
    rcases Bool.eq_false_or_eq_true (p.1 == k) with hpk | hpk
    · have hpk' : p.1 = k := by simpa using hpk
      have hpx : (p.1 == x) = false := by rw [hpk']; exact hkx
      rw [if_pos hpk, if_neg (by simp [hkx]), if_neg (by simp [hpx])]
      exact ih
    · rw [if_neg (show ¬ (p.1 == k) = true by simp [hpk])]
      rcases Bool.eq_false_or_eq_true (p.1 == x) with hpx | hpx
      · rw [if_pos hpx, if_pos hpx]
      · have hnx : ¬ (p.1 == x) = true := by simp [hpx]
        rw [if_neg hnx, if_neg hnx]
        exact ih

theorem lookup_append_single_self (m : StyleMapping) (k v : String)
    (h : hasKey m k = false) : lookup k (m ++ [(k, v)]) = some v := by
  induction m with
  | nil => simp [lookup, List.find?]
  | cons p rest ih =>
    rw [hasKey_cons, Bool.or_eq_false_iff] at h
    rw [List.cons_append, lookup_cons, if_neg (by simp [h.1])]
    exact ih h.2

theorem lookup_append_single_ne (m : StyleMapping) (k v x : String)
    (hx : x ≠ k) : lookup x (m ++ [(k, v)]) = lookup x m := by
  have hkx : (k == x) = false := by
    have : ¬ k = x := fun hEq => hx hEq.symm
    simp [this]
  induction m with
  | nil => simp [lookup, List.find?, hkx]
  | cons p rest ih =>
    rw [List.cons_append, lookup_cons, lookup_cons]
    cases hpx : (p.1 == x) with
    | true => simp [hpx]
    | false =>
      simp only [hpx, Bool.false_eq_true, if_false]
      exact ih

theorem lookup_setKey_self (m : StyleMapping) (k v : String) :
    lookup k (setKey m k v) = some v := by
  unfold setKey
  cases h : hasKey m k with
  | true => rw [if_pos rfl]; exact lookup_map_set_self m k v h
  | false => rw [if_neg (by simp)]; exact lookup_append_single_self m k v h

theorem lookup_setKey_ne (m : StyleMapping) (k v x : String) (hx : x ≠ k) :
    lookup x (setKey m k v) = lookup x m := by
  unfold setKey
  cases h : hasKey m k with
  | true => rw [if_pos rfl]; exact lookup_map_set_ne m k v x hx
  | false => rw [if_neg (by simp)]; exact lookup_append_single_ne m k v x hx

theorem lookup_eq_none_of_not_mem (m : StyleMapping) (k : String)
    (h : k ∉ keys m) : lookup k m = none := by
  induction m with
  | nil => rfl
  | cons p rest ih =>
    rw [keys_cons, List.mem_cons] at h
    push_neg at h
    have hpk : ¬ p.1 = k := fun hEq => h.1 hEq.symm
    rw [lookup_cons, if_neg (by simp [hpk])]
    exact ih h.2

/-! ### Lemmas about `dictUpdate` -/

theorem dictUpdate_cons (m : StyleMapping) (p : String × String)
    (rest : StyleMapping) :
    dictUpdate m (p :: rest) = dictUpdate (setKey m p.1 p.2) rest := rfl

theorem lookup_dictUpdate_not_mem (m o : StyleMapping) (k : String)
    (h : k ∉ keys o) : lookup k (dictUpdate m o) = lookup k m := by
  induction o generalizing m with
  | nil => rfl
  | cons p rest ih =>
    rw [keys_cons, List.mem_cons] at h
    push_neg at h
    rw [dictUpdate_cons, ih _ h.2, lookup_setKey_ne _ _ _ _ h.1]

theorem lookup_dictUpdate_mem (m o : StyleMapping) (k : String)
    (ho : (keys o).Nodup) (h : k ∈ keys o) :
    lookup k (dictUpdate m o) = lookup k o := by
  induction o generalizing m with
  | nil => cases h
  | cons p rest ih =>
    rw [keys_cons] at ho h
    obtain ⟨hp, hrest⟩ := List.nodup_cons.mp ho
    rw [dictUpdate_cons, lookup_cons]
    by_cases hpk : p.1 = k
    · have hkr : k ∉ keys rest := hpk ▸ hp
      rw [lookup_dictUpdate_not_mem _ _ _ hkr, if_pos (by simp [hpk])]
      rw [← hpk, lookup_setKey_self]
    · have hkr : k ∈ keys rest := by
        rcases List.mem_cons.mp h with hEq | hMem
        · exact absurd hEq.symm hpk
        · exact hMem
      rw [ih _ hrest hkr, if_neg (by simp [hpk])]

theorem mem_keys_dictUpdate (m o : StyleMapping) (k : String) :
    k ∈ keys (dictUpdate m o) ↔ k ∈ keys m ∨ k ∈ keys o := by
  induction o generalizing m with
  | nil => simp [dictUpdate, keys]
  | cons p rest ih =>
    rw [dictUpdate_cons, ih, mem_keys_setKey, keys_cons, List.mem_cons]
    tauto

theorem keys_dictUpdate (m o : StyleMapping) (ho : (keys o).Nodup) :
    keys (dictUpdate m o)
      = keys m ++ (keys o).filter (fun k => !(hasKey m k)) := by
  induction o generalizing m with
  | nil => simp [dictUpdate, keys]
  | cons p rest ih =>
    rw [keys_cons] at ho
    obtain ⟨hp, hrest⟩ := List.nodup_cons.mp ho
    rw [dictUpdate_cons, ih _ hrest, keys_cons, List.filter_cons]
    have hfilt : (keys rest).filter (fun k => !(hasKey (setKey m p.1 p.2) k))
        = (keys rest).filter (fun k => !(hasKey m k)) := by
      apply List.filter_congr
      intro x hx
      have hxne : ¬ x = p.1 := fun hEq => hp (hEq ▸ hx)
      have hxp : (x == p.1) = false := by simp [hxne]
      rw [hasKey_setKey, hxp, Bool.or_false]
    rw [hfilt]
    cases hm : hasKey m p.1 with
    | true =>
      rw [keys_setKey_of_hasKey _ _ _ hm]
      simp [hm]
    | false =>
      rw [keys_setKey_of_not_hasKey _ _ _ hm]
      simp [hm, List.append_assoc]

/-! ### Merge-level helper lemmas -/

theorem lookup_merge_mem (B O : StyleMapping) (k : String)
    (hO : NodupKeys O) (hk : k ∈ keys O) :
    lookup k (merge B O) = lookup k O :=
  lookup_dictUpdate_mem (dictCopy B) O k hO hk

theorem lookup_merge_not_mem (B O : StyleMapping) (k : String)
    (hO : k ∉ keys O) : lookup k (merge B O) = lookup k B :=
  lookup_dictUpdate_not_mem (dictCopy B) O k hO

/-! ### State model of the class body

The class body of `DefaultAnsiStyle` executes two statements,

```python
styles = dict(DefaultStyle.styles)
styles.update(color_tokens())
```

reading the inherited mapping and the overlay and writing only the
freshly allocated `styles` attribute.  We track all three names
explicitly so that the absence of side effects on the inputs is a
provable statement rather than a modelling assumption. -/

/-- The three names the class body reads or writes: the inherited
`DefaultStyle.styles`, the overlay returned by `color_tokens()`, and the
class attribute `styles` under construction. -/
structure ClassBodyState where
  baseStyles : StyleMapping
  overlayTokens : StyleMapping
  styles : StyleMapping

/-- Statement 1, `styles = dict(DefaultStyle.styles)`: bind `styles` to a
fresh copy of the base mapping; the base itself is only read. -/
def copyStmt (s : ClassBodyState) : ClassBodyState :=
  { s with styles := dictCopy s.baseStyles }

/-- Statement 2, `styles.update(color_tokens())`: update the fresh copy in
place with every pair of the overlay; the overlay itself is only read. -/
def updateStmt (s : ClassBodyState) : ClassBodyState :=
  { s with styles := dictUpdate s.styles s.overlayTokens }

/-- The whole class body: statement 1 followed by statement 2. -/
def classBody (s : ClassBodyState) : ClassBodyState := updateStmt (copyStmt s)

/-! ### Step-bounded execution of the update loop

`dict.update` iterates once over the overlay.  `dictUpdateFuel` makes the
step budget explicit: `none` models exhausting the budget, the only
conceivable way the loop could fail to deliver a result (the code has no
error branch). -/

/-- `dictUpdate` with an explicit step budget, spending one unit per
overlay pair. -/
def dictUpdateFuel : Nat → StyleMapping → StyleMapping → Option StyleMapping
  | _, m, [] => some m
  | 0, _, _ :: _ => none
  | fuel + 1, m, p :: rest => dictUpdateFuel fuel (setKey m p.1 p.2) rest

theorem dictUpdateFuel_complete (o m : StyleMapping) :
    dictUpdateFuel o.length m o = some (dictUpdate m o) := by
  induction o generalizing m with
  | nil => rfl
  | cons p rest ih => exact ih (setKey m p.1 p.2)

/-! ### The claims -/

/-- C1: for every base StyleMapping B and overlay StyleMapping O, the key
set of `merge B O` equals the union of the keys of B and the keys of O. -/
theorem merge_keySet_union (B O : StyleMapping) (k : String) :
    k ∈ keys (merge B O) ↔ k ∈ keys B ∨ k ∈ keys O :=
  mem_keys_dictUpdate (dictCopy B) O k

/-- C2: for every key k present in the overlay O, looking up k in
`merge B O` yields the overlay's value for k — the overlay always wins on
key collisions, including keys also present in B. -/
theorem merge_overlay_precedence (B O : StyleMapping) (k : String)
    (hO : NodupKeys O) (hk : k ∈ keys O) :
    lookup k (merge B O) = lookup k O :=
  lookup_merge_mem B O k hO hk

theorem merge_overlay_precedence_witness :
    NodupKeys [("ansi-red", "red"), ("keyword", "bold red")] ∧
      "keyword" ∈ keys [("ansi-red", "red"), ("keyword", "bold red")] ∧
      lookup "keyword"
          (merge [("keyword", "bold blue"), ("comment", "italic gray")]
            [("ansi-red", "red"), ("keyword", "bold red")])
        = lookup "keyword" [("ansi-red", "red"), ("keyword", "bold red")] :=
  ⟨by decide, by decide,
    merge_overlay_precedence
      [("keyword", "bold blue"), ("comment", "italic gray")]
      [("ansi-red", "red"), ("keyword", "bold red")]
      "keyword" (by decide) (by decide)⟩

/-- C3: for every key k present in the base B but not in the overlay O,
looking up k in `merge B O` yields the base's value for k. -/
theorem merge_base_preserved (B O : StyleMapping) (k : String)
    (hB : k ∈ keys B) (hO : k ∉ keys O) :
    lookup k (merge B O) = lookup k B :=
  lookup_merge_not_mem B O k hO

theorem merge_base_preserved_witness :
    "comment" ∈ keys [("keyword", "bold blue"), ("comment", "italic gray")] ∧
      "comment" ∉ keys [("ansi-red", "red"), ("keyword", "bold red")] ∧
      lookup "comment"
          (merge [("keyword", "bold blue"), ("comment", "italic gray")]
            [("ansi-red", "red"), ("keyword", "bold red")])
        = lookup "comment" [("keyword", "bold blue"), ("comment", "italic gray")] :=
  ⟨by decide, by decide,
    merge_base_preserved
      [("keyword", "bold blue"), ("comment", "italic gray")]
      [("ansi-red", "red"), ("keyword", "bold red")]
      "comment" (by decide) (by decide)⟩

/-- C4: merging with the same overlay is idempotent:
`merge (merge B O) O` equals `merge B O` as a mapping. -/
theorem merge_idempotent (B O : StyleMapping) (hO : NodupKeys O) :
    mapEquiv (merge (merge B O) O) (merge B O) := by
  intro k
  by_cases hk : k ∈ keys O
  · exact (lookup_merge_mem (merge B O) O k hO hk).trans
      (lookup_merge_mem B O k hO hk).symm
  · exact lookup_merge_not_mem (merge B O) O k hk

theorem merge_idempotent_witness :
    NodupKeys [("ansi-red", "red"), ("keyword", "bold red")] ∧
      mapEquiv
        (merge
          (merge [("keyword", "bold blue")] [("ansi-red", "red"), ("keyword", "bold red")])
          [("ansi-red", "red"), ("keyword", "bold red")])
        (merge [("keyword", "bold blue")] [("ansi-red", "red"), ("keyword", "bold red")]) :=
  ⟨by decide,
    merge_idempotent [("keyword", "bold blue")]
      [("ansi-red", "red"), ("keyword", "bold red")] (by decide)⟩

/-- C5: the empty mapping is a right identity for merge: `merge B []`
equals B as a mapping. -/
theorem merge_empty_overlay_id (B : StyleMapping) : mapEquiv (merge B []) B :=
  fun _ => rfl

/-- C6: the empty mapping is a left identity for merge: `merge [] O`
equals O as a mapping. -/
theorem merge_empty_base_id (O : StyleMapping) (hO : NodupKeys O) :
    mapEquiv (merge [] O) O := by
  intro k
  by_cases hk : k ∈ keys O
  · exact lookup_merge_mem [] O k hO hk
  · exact (lookup_merge_not_mem [] O k hk).trans
      (lookup_eq_none_of_not_mem O k hk).symm

theorem merge_empty_base_id_witness :
    NodupKeys [("ansi-red", "red"), ("keyword", "bold red")] ∧
      mapEquiv (merge [] [("ansi-red", "red"), ("keyword", "bold red")])
        [("ansi-red", "red"), ("keyword", "bold red")] :=
  ⟨by decide,
    merge_empty_base_id [("ansi-red", "red"), ("keyword", "bold red")] (by decide)⟩

/-- C7: on the concrete inputs of the spec's example, the merge produces
exactly the expected mapping (keyword restyled by the overlay, comment
kept from the base, ansi-red added). -/
theorem merge_concrete_example :
    merge [("keyword", "bold blue"), ("comment", "italic gray")]
        [("ansi-red", "red"), ("keyword", "bold red")]
      = [("keyword", "bold red"), ("comment", "italic gray"), ("ansi-red", "red")] := by
  decide

/-- C8: the class body has no side effects on its inputs: after executing
both statements, the inherited base mapping and the overlay mapping are
unchanged, and only the freshly bound `styles` attribute was produced and
updated in place, holding exactly `merge b o`. -/
theorem merge_no_side_effects (b o st : StyleMapping) :
    (classBody ⟨b, o, st⟩).baseStyles = b ∧
      (classBody ⟨b, o, st⟩).overlayTokens = o ∧
      (classBody ⟨b, o, st⟩).styles = merge b o :=
  ⟨rfl, rfl, rfl⟩

/-- C9: merge is total and unconditionally terminates: a step budget of
one unit per overlay pair always suffices for the update loop to complete,
and the result it delivers is the merged mapping — no input reaches the
exhausted-budget branch and there is no error branch at all. -/
theorem merge_total (B O : StyleMapping) :
    dictUpdateFuel O.length (dictCopy B) O = some (merge B O) :=
  dictUpdateFuel_complete O (dictCopy B)

/-- C10: the merged mapping's key iteration order is fully determined:
`merge B O` lists B's keys first in B's order (keys shared with O keep
their position while taking O's value), followed by the keys of O absent
from B in O's order. -/
theorem merge_key_order (B O : StyleMapping) (hO : NodupKeys O) :
    keys (merge B O) = keys B ++ (keys O).filter (fun k => !(hasKey B k)) ∧
      ∀ k, k ∈ keys O → lookup k (merge B O) = lookup k O :=
  ⟨keys_dictUpdate (dictCopy B) O hO,
    fun k hk => lookup_merge_mem B O k hO hk⟩

theorem merge_key_order_witness :
    NodupKeys [("ansi-red", "red"), ("keyword", "bold red")] ∧
      keys (merge [("keyword", "bold blue"), ("comment", "italic gray")]
          [("ansi-red", "red"), ("keyword", "bold red")])
        = keys [("keyword", "bold blue"), ("comment", "italic gray")] ++
            (keys [("ansi-red", "red"), ("keyword", "bold red")]).filter
              (fun k => !(hasKey [("keyword", "bold blue"), ("comment", "italic gray")] k)) :=
  ⟨by decide,
    (merge_key_order [("keyword", "bold blue"), ("comment", "italic gray")]
      [("ansi-red", "red"), ("keyword", "bold red")] (by decide)).1⟩

end CartaStyle
